import Mathlib

/-!
# A shallow embedding of the `stm` package (optimistic software transactional memory)

This file embeds the core of the Go STM runtime (`stm/transaction.go`,
`stm/memory-cells.go`, `stm/tmanager.go`, `stm/utils.go`) into Lean 4 and
proves properties of it.

Modelling conventions:

* A `MemoryCell` pointer is identified with its `cellIndex` (a `Nat`): cells
  are created by `MakeMemCell` with pairwise distinct indices into the
  `_Memory` vector, so pointer equality coincides with index equality.
* A `*Transaction` pointer stored in the ownership table is identified with a
  numeric transaction identity `id`; the Go comparison `owner == t` becomes
  equality of identities.
* `gob` encoding/decoding is abstracted as a `Codec`: `enc` may fail (Go
  `Encoder.Encode` returning an error) and `dec` may fail (Go
  `Decoder.Decode` returning an error).  Byte buffers are `List Nat`.
* Go maps (`oldValues`, `tvars`, `_Ownerships`) are association lists with
  shadowing update; a missing key reads as `nil`, i.e. `none`.
* Mutexed access in the Go code serializes each shared-memory touch; the
  embedding is of the sequential semantics of each operation (the claims
  under study are about single operations, single attempts and sequential
  reruns, not about interleavings).
* On a failed `readData` the Go byte buffer may be left partially consumed;
  the embedding leaves it unchanged.  Either way a subsequent decode of that
  cell fails again, which is the only observable the development relies on.
-/

namespace STMGo

/-- The `gob`-style value codec: `enc` produces the byte form of a payload
(`nil` result models an encode error), `dec` recovers a payload from bytes
(`none` models a decode error).  Payload type `Val` models Go's `Data`
(`interface{}`). -/
structure Codec (Val : Type) where
  enc : Val → Option (List Nat)
  dec : List Nat → Option Val

/-- The shared memory of `tmanager.go`: `_Memory` is the vector of cell byte
buffers (indexed by `cellIndex`), `_Ownerships` is the
`map[int]*Transaction` ownership table (value `none` models `nil`). -/
structure STM where
  mem : List (List Nat)
  ownerships : List (Nat × Option Nat)
  deriving DecidableEq

/-- The `Record` of `transaction.go`: transaction metadata.  `oldValues` is
the dual-purpose backup/staging map (`map[*MemoryCell]Data`), `readSet` and
`writeSet` are the slices of cell addresses. -/
structure Record (Val : Type) where
  name : String
  status : Bool
  version : Nat
  oldValues : List (Nat × Val)
  readSet : List Nat
  writeSet : List Nat
  deriving DecidableEq

/-- The mutable state of a `Transaction` (minus its action closures, which
are passed separately): metadata record, the `isScanning` phase flag, the
transactional-variable map `tvars`, and the pointer identity `id` used by
the ownership table. -/
structure TxnState (Val : Type) where
  metadata : Record Val
  isScanning : Bool
  tvars : List (String × Val)
  id : Nat
  deriving DecidableEq

/-- `contains` from `utils.go`: linear membership scan over a slice of cell
addresses. -/
def contains : List Nat → Nat → Bool
  | [], _ => false
  | x :: rest, c => if x = c then true else contains rest c

/-- Go map lookup: first (most recent) binding wins, missing key reads as
`nil`/`none`. -/
def mlookup {κ α : Type} [DecidableEq κ] : List (κ × α) → κ → Option α
  | [], _ => none
  | (k, v) :: rest, c => if k = c then some v else mlookup rest c

/-- Go map update `m[k] = v`: shadowing insertion. -/
def mset {κ α : Type} (l : List (κ × α)) (k : κ) (v : α) : List (κ × α) :=
  (k, v) :: l

/-- Lookup in the `_Ownerships` map: a missing key and a key explicitly set
to `nil` both read as `none`. -/
def olookup (l : List (Nat × Option Nat)) (c : Nat) : Option Nat :=
  match mlookup l c with
  | none => none
  | some v => v

/-- `MemoryCell.readData` of `memory-cells.go`: decode the buffer into the
container, then re-encode the container back into the buffer.  Returns the
decoded value together with the new buffer contents, or `none` if either
step fails (the Go function returns `false`). -/
def readData {Val : Type} (C : Codec Val) (b : List Nat) : Option (Val × List Nat) :=
  match C.dec b with
  | none => none
  | some v =>
    match C.enc v with
    | none => none
    | some b2 => some (v, b2)

/-- The bytes left in a buffer by `gob`-encoding a possibly-`nil` value with
the error ignored (`encoder.Encode(backup)` in `commit`, and
`writeData(newData)` in the install loop): encoding `nil` or an unencodable
value leaves an empty buffer. -/
def encodeOpt {Val : Type} (C : Codec Val) : Option Val → List Nat
  | none => []
  | some v => (C.enc v).getD []

variable {Val : Type}

/-- The current byte buffer of cell `c`, i.e. `stm._Memory[cellIndex]`
(out-of-range reads, which would panic in Go, default to the empty
buffer). -/
def memRead (m : List (List Nat)) (c : Nat) : List Nat := m.getD c []

/-- `Transaction.ReadT` of `transaction.go`.  Reads the cell's buffer via
`readData`; on failure returns `false`.  In scan phase, appends the cell to
the read-set when it is in neither set and returns early (no backup).  In
execute phase, stores the decoded value as the backup `oldValues[memcell]`.
Result: (status, new shared memory, new transaction state, value read). -/
def ReadT (C : Codec Val) (s : STM) (t : TxnState Val) (c : Nat) :
    Bool × STM × TxnState Val × Option Val :=
  match readData C (memRead s.mem c) with
  | none => (false, s, t, none)
  | some (v, b2) =>
    let s2 : STM := { s with mem := s.mem.set c b2 }
    if t.isScanning then
      if !contains t.metadata.writeSet c && !contains t.metadata.readSet c then
        (true, s2,
          { t with metadata :=
              { t.metadata with readSet := t.metadata.readSet ++ [c] } }, some v)
      else
        (true, s2, t, some v)
    else
      (true, s2,
        { t with metadata :=
            { t.metadata with oldValues := mset t.metadata.oldValues c v } }, some v)

/-- `Transaction.WriteT` of `transaction.go`.  In scan phase, appends the
cell to the write-set when absent and succeeds without touching shared
state.  In execute phase, succeeds iff the transaction owns the cell, in
which case the new data is staged into `oldValues[memcell]`. -/
def WriteT (s : STM) (t : TxnState Val) (c : Nat) (v : Val) : Bool × TxnState Val :=
  if t.isScanning then
    if !contains t.metadata.writeSet c then
      (true, { t with metadata :=
          { t.metadata with writeSet := t.metadata.writeSet ++ [c] } })
    else
      (true, t)
  else
    if olookup s.ownerships c = some t.id then
      (true, { t with metadata :=
          { t.metadata with oldValues := mset t.metadata.oldValues c v } })
    else
      (false, t)

/-- `Transaction.GetTVar`: `nil` during scan phase, otherwise the map
lookup. -/
def GetTVar (t : TxnState Val) (name : String) : Option Val :=
  if t.isScanning then none else mlookup t.tvars name

/-- `Transaction.PutTVar`: no-op during scan phase, otherwise a map
update. -/
def PutTVar (t : TxnState Val) (name : String) (v : Val) : TxnState Val :=
  if t.isScanning then t else { t with tvars := mset t.tvars name v }

/-- A user action, as built by `TransactionContext.Do`: a closure over the
transactional API.  The constructors are exactly the operations the API
exposes to an action, each followed by a continuation on the result, ending
in the action's boolean verdict. -/
inductive ActionM (Val : Type) where
  | ret (b : Bool)
  | readT (c : Nat) (k : Bool → Option Val → ActionM Val)
  | writeT (c : Nat) (v : Val) (k : Bool → ActionM Val)
  | getTVar (name : String) (k : Option Val → ActionM Val)
  | putTVar (name : String) (v : Val) (k : ActionM Val)

/-- Run one action against the shared memory and the transaction state. -/
def runAction (C : Codec Val) : ActionM Val → STM → TxnState Val → Bool × STM × TxnState Val
  | .ret b, s, t => (b, s, t)
  | .readT c k, s, t =>
    match ReadT C s t c with
    | (ok, s2, t2, v) => runAction C (k ok v) s2 t2
  | .writeT c v k, s, t =>
    match WriteT s t c v with
    | (ok, t2) => runAction C (k ok) s t2
  | .getTVar n k, s, t => runAction C (k (GetTVar t n)) s t
  | .putTVar n v k, s, t => runAction C k s (PutTVar t n v)

/-- `Transaction.scanActions` body: run every action, ignoring failures. -/
def runAll (C : Codec Val) : List (ActionM Val) → STM → TxnState Val → STM × TxnState Val
  | [], s, t => (s, t)
  | a :: rest, s, t =>
    match runAction C a s t with
    | (_, s2, t2) => runAll C rest s2 t2

/-- `Transaction.scanActions`: set `isScanning`, run all actions, clear
`isScanning`. -/
def scanActions (C : Codec Val) (acts : List (ActionM Val)) (s : STM) (t : TxnState Val) :
    STM × TxnState Val :=
  match runAll C acts s { t with isScanning := true } with
  | (s2, t2) => (s2, { t2 with isScanning := false })

/-- `Transaction.executeActions`: run the actions serially, stopping at the
first failure. -/
def executeActions (C : Codec Val) : List (ActionM Val) → STM → TxnState Val →
    Bool × STM × TxnState Val
  | [], s, t => (true, s, t)
  | a :: rest, s, t =>
    match runAction C a s t with
    | (true, s2, t2) => executeActions C rest s2 t2
    | (false, s2, t2) => (false, s2, t2)

/-- The loop body of `Transaction.takeOwnerships`, iterating the write-set
slice in its stored (insertion) order: a free cell is claimed, an
already-mine cell is skipped, a foreign-owned cell stops the loop with
failure (`break`), leaving earlier claims in place. -/
def takeOwnershipsLoop (tid : Nat) : STM → List Nat → Bool × STM
  | s, [] => (true, s)
  | s, c :: rest =>
    match olookup s.ownerships c with
    | none =>
      takeOwnershipsLoop tid
        { s with ownerships := mset s.ownerships c (some tid) } rest
    | some j =>
      if j = tid then takeOwnershipsLoop tid s rest
      else (false, s)

/-- `Transaction.takeOwnerships`. -/
def takeOwnerships (s : STM) (t : TxnState Val) : Bool × STM :=
  takeOwnershipsLoop t.id s t.metadata.writeSet

/-- The ownership-release loop of `Transaction.rollback`: for each write-set
cell currently owned by this transaction, set the ownership entry to
`nil`. -/
def releaseLoop (tid : Nat) : STM → List Nat → STM
  | s, [] => s
  | s, c :: rest =>
    if olookup s.ownerships c = some tid then
      releaseLoop tid { s with ownerships := mset s.ownerships c none } rest
    else
      releaseLoop tid s rest

/-- `Transaction.rollback`: release held ownerships of write-set members and
reset `readSet`, `writeSet`, `oldValues`.  Cell payloads are never
touched. -/
def rollback (s : STM) (t : TxnState Val) : STM × TxnState Val :=
  (releaseLoop t.id s t.metadata.writeSet,
   { t with metadata :=
       { t.metadata with readSet := [], writeSet := [], oldValues := [] } })

/-- The read-set validation loop of `Transaction.commit`: for each read-set
member, gob-encode the backup (`oldValues` entry; encoding `nil` errors and
leaves the comparison buffer empty) and compare byte-wise with the cell's
current buffer; a mismatch on a member not in the write-set fails the
commit (`break`). -/
def validateLoop (C : Codec Val) (s : STM) (old : List (Nat × Val)) (ws : List Nat) :
    List Nat → Bool
  | [] => true
  | c :: rest =>
    if encodeOpt C (mlookup old c) ≠ memRead s.mem c ∧ contains ws c = false then
      false
    else
      validateLoop C s old ws rest

/-- The install loop of `Transaction.commit`: for each write-set member
still owned by this transaction, overwrite the cell's buffer with the
encoded staged value (`writeData`'s result bytes; its error is ignored) and
release the ownership; a lost ownership fails the commit (`break`), leaving
the already-installed cells installed. -/
def installLoop (C : Codec Val) (tid : Nat) (old : List (Nat × Val)) :
    STM → List Nat → Bool × STM
  | s, [] => (true, s)
  | s, c :: rest =>
    if olookup s.ownerships c = some tid then
      installLoop C tid old
        { s with
          mem := s.mem.set c (encodeOpt C (mlookup old c)),
          ownerships := mset s.ownerships c none } rest
    else
      (false, s)

/-- `Transaction.commit`: validate the read-set, then (only on success)
install the write-set, then (only on overall success) reset the sets. -/
def commit (C : Codec Val) (s : STM) (t : TxnState Val) : Bool × STM × TxnState Val :=
  if validateLoop C s t.metadata.oldValues t.metadata.writeSet t.metadata.readSet then
    match installLoop C t.id t.metadata.oldValues s t.metadata.writeSet with
    | (true, s2) =>
      (true, s2,
        { t with metadata :=
            { t.metadata with readSet := [], writeSet := [], oldValues := [] } })
    | (false, s2) => (false, s2, t)
  else
    (false, s, t)

/-- One iteration of the retry loop in `Transaction.Go`: clear `status`,
scan, take ownerships, execute, commit; any failure rolls back.  The boolean
is `true` iff this attempt committed (on commit `status` flips and `version`
increments, ending the loop). -/
def attempt (C : Codec Val) (acts : List (ActionM Val)) (s : STM) (t : TxnState Val) :
    STM × TxnState Val × Bool :=
  match scanActions C acts s { t with metadata := { t.metadata with status := false } } with
  | (s1, t1) =>
    match takeOwnerships s1 t1 with
    | (false, s2) =>
      match rollback s2 t1 with
      | (s3, t3) => (s3, t3, false)
    | (true, s2) =>
      match executeActions C acts s2 t1 with
      | (false, s3, t3) =>
        match rollback s3 t3 with
        | (s4, t4) => (s4, t4, false)
      | (true, s3, t3) =>
        match commit C s3 t3 with
        | (true, s4, t4) =>
          (s4,
            { t4 with metadata :=
                { t4.metadata with status := true, version := t4.metadata.version + 1 } },
            true)
        | (false, s4, _) =>
          match rollback s4 t3 with
          | (s5, t5) => (s5, t5, false)

/-- The retry loop of `Transaction.Go`, with explicit fuel: `none` means the
transaction has not committed within `fuel` attempts (the Go loop would
still be spinning). -/
def goLoop (C : Codec Val) (acts : List (ActionM Val)) :
    Nat → STM → TxnState Val → Option (STM × TxnState Val)
  | 0, _, _ => none
  | fuel + 1, s, t =>
    match attempt C acts s t with
    | (s2, t2, true) => some (s2, t2)
    | (s2, t2, false) => goLoop C acts fuel s2 t2

/-- `n` successive successful `Exec` calls of the same transaction object
(each `Exec` runs `Go` to completion); `none` if any run fails to commit
within its fuel. -/
def execN (C : Codec Val) (acts : List (ActionM Val)) (fuel : Nat) :
    Nat → STM → TxnState Val → Option (STM × TxnState Val)
  | 0, s, t => some (s, t)
  | n + 1, s, t =>
    match goLoop C acts fuel s t with
    | none => none
    | some (s2, t2) => execN C acts fuel n s2 t2

/-- The transaction state produced by `TransactionContext.Done` (with tvars
seeded by `Where` and an ambient pointer identity): `status = false`,
`version = 0`, empty sets, `isScanning = true`. -/
def doneTxn (name : String) (tvars : List (String × Val)) (id : Nat) : TxnState Val :=
  { metadata :=
      { name := name, status := false, version := 0,
        oldValues := [], readSet := [], writeSet := [] },
    isScanning := true, tvars := tvars, id := id }

/-! ## Basic lemmas about the container encodings -/

theorem contains_iff_mem (l : List Nat) (c : Nat) : contains l c = true ↔ c ∈ l := by
  induction l with
  | nil => simp [contains]
  | cons x rest ih =>
    by_cases h : x = c
    · subst h; simp [contains]
    · simp [contains, h, ih]
      exact fun h2 => absurd h2.symm h

theorem contains_eq_false_iff (l : List Nat) (c : Nat) :
    contains l c = false ↔ c ∉ l := by
  rw [← contains_iff_mem l c]
  cases contains l c <;> simp

theorem mlookup_mset_self {κ α : Type} [DecidableEq κ] (l : List (κ × α)) (k : κ) (v : α) :
    mlookup (mset l k v) k = some v := by
  simp [mset, mlookup]

theorem mlookup_mset_ne {κ α : Type} [DecidableEq κ] (l : List (κ × α)) (k d : κ) (v : α)
    (h : k ≠ d) : mlookup (mset l k v) d = mlookup l d := by
  simp [mset, mlookup, h]

theorem olookup_mset_self (l : List (Nat × Option Nat)) (c : Nat) (v : Option Nat) :
    olookup (mset l c v) c = v := by
  simp [olookup, mlookup_mset_self]

theorem olookup_mset_ne (l : List (Nat × Option Nat)) (c d : Nat) (v : Option Nat)
    (h : c ≠ d) : olookup (mset l c v) d = olookup l d := by
  simp [olookup, mlookup_mset_ne _ _ _ _ h]

theorem getD_set_self (l : List (List Nat)) (i : Nat) (x : List Nat) (h : i < l.length) :
    (l.set i x).getD i [] = x := by
  rw [List.getD_eq_getElem?_getD, List.getElem?_set_eq_of_lt _ h]
  rfl

theorem getD_set_ne (l : List (List Nat)) (i j : Nat) (x : List Nat) (h : i ≠ j) :
    (l.set i x).getD j [] = l.getD j [] := by
  rw [List.getD_eq_getElem?_getD, List.getElem?_set_ne h, ← List.getD_eq_getElem?_getD]

theorem memRead_set_self (l : List (List Nat)) (i : Nat) (x : List Nat)
    (h : i < l.length) : memRead (l.set i x) i = x :=
  getD_set_self l i x h

theorem memRead_set_ne (l : List (List Nat)) (i j : Nat) (x : List Nat) (h : i ≠ j) :
    memRead (l.set i x) j = memRead l j :=
  getD_set_ne l i j x h

/-! ## Lemmas about the rollback release loop -/

theorem releaseLoop_mem_eq (tid : Nat) (ws : List Nat) (s : STM) :
    (releaseLoop tid s ws).mem = s.mem := by
  induction ws generalizing s with
  | nil => rfl
  | cons c rest ih =>
    unfold releaseLoop
    split <;> exact ih _

theorem olookup_releaseLoop_not_mem (tid : Nat) (ws : List Nat) (s : STM) (c : Nat)
    (h : c ∉ ws) : olookup (releaseLoop tid s ws).ownerships c = olookup s.ownerships c := by
  induction ws generalizing s with
  | nil => rfl
  | cons x rest ih =>
    have hx : x ≠ c := fun he => h (he ▸ List.mem_cons_self x rest)
    have hr : c ∉ rest := fun hm => h (List.mem_cons_of_mem x hm)
    unfold releaseLoop
    split
    · rw [ih _ hr]
      exact olookup_mset_ne _ _ _ _ hx
    · exact ih _ hr

theorem olookup_releaseLoop_or (tid : Nat) (ws : List Nat) (s : STM) (c : Nat) :
    olookup (releaseLoop tid s ws).ownerships c = olookup s.ownerships c ∨
      olookup (releaseLoop tid s ws).ownerships c = none := by
  induction ws generalizing s with
  | nil => exact Or.inl rfl
  | cons x rest ih =>
    unfold releaseLoop
    split
    · rcases ih { s with ownerships := mset s.ownerships x none } with h | h
      · by_cases hx : x = c
        · subst hx
          rw [h, olookup_mset_self]
          exact Or.inr rfl
        · rw [h, olookup_mset_ne _ _ _ _ hx]
          exact Or.inl rfl
      · exact Or.inr h
    · exact ih s

theorem olookup_releaseLoop_of_mem (tid : Nat) (ws : List Nat) (s : STM) (c : Nat)
    (h : c ∈ ws) : olookup (releaseLoop tid s ws).ownerships c ≠ some tid := by
  induction ws generalizing s with
  | nil => cases h
  | cons x rest ih =>
    by_cases hc : c ∈ rest
    · unfold releaseLoop
      split <;> exact ih _ hc
    · have hx : x = c := by
        rcases List.mem_cons.mp h with h1 | h1
        · exact h1.symm
        · exact absurd h1 hc
      subst hx
      unfold releaseLoop
      split
      · rcases olookup_releaseLoop_or tid rest
          { s with ownerships := mset s.ownerships x none } x with h2 | h2
        · rw [h2, olookup_mset_self]
          simp
        · rw [h2]
          simp
      · rename_i hown
        rw [olookup_releaseLoop_not_mem tid rest s x hc]
        exact hown

/-! ## Field preservation lemmas for the transactional operations -/

theorem ReadT_fields {Val : Type} (C : Codec Val) (s : STM) (t : TxnState Val) (c : Nat) :
    ((ReadT C s t c).2.2.1).metadata.version = t.metadata.version ∧
      ((ReadT C s t c).2.2.1).metadata.status = t.metadata.status ∧
      ((ReadT C s t c).2.2.1).id = t.id ∧
      ((ReadT C s t c).2.2.1).isScanning = t.isScanning ∧
      ((ReadT C s t c).2.2.1).tvars = t.tvars := by
  unfold ReadT
  cases readData C (memRead s.mem c) with
  | none => exact ⟨rfl, rfl, rfl, rfl, rfl⟩
  | some p =>
    cases p with
    | mk v b2 =>
      simp only
      split
      · split <;> exact ⟨rfl, rfl, rfl, rfl, rfl⟩
      · exact ⟨rfl, rfl, rfl, rfl, rfl⟩

theorem WriteT_fields {Val : Type} (s : STM) (t : TxnState Val) (c : Nat) (v : Val) :
    ((WriteT s t c v).2).metadata.version = t.metadata.version ∧
      ((WriteT s t c v).2).metadata.status = t.metadata.status ∧
      ((WriteT s t c v).2).id = t.id ∧
      ((WriteT s t c v).2).isScanning = t.isScanning ∧
      ((WriteT s t c v).2).tvars = t.tvars := by
  unfold WriteT
  split
  · split <;> exact ⟨rfl, rfl, rfl, rfl, rfl⟩
  · split <;> exact ⟨rfl, rfl, rfl, rfl, rfl⟩

theorem runAction_fields {Val : Type} (C : Codec Val) (a : ActionM Val) (s : STM)
    (t : TxnState Val) :
    ((runAction C a s t).2.2).metadata.version = t.metadata.version ∧
      ((runAction C a s t).2.2).metadata.status = t.metadata.status ∧
      ((runAction C a s t).2.2).id = t.id ∧
      ((runAction C a s t).2.2).isScanning = t.isScanning := by
  induction a generalizing s t with
  | ret b => exact ⟨rfl, rfl, rfl, rfl⟩
  | readT c k ih =>
    have hf := ReadT_fields C s t c
    unfold runAction
    rcases hr : ReadT C s t c with ⟨ok, s2, t2, v⟩
    rw [hr] at hf
    have := ih ok v s2 t2
    simp only at hf
    exact ⟨hf.1 ▸ this.1, hf.2.1 ▸ this.2.1, hf.2.2.1 ▸ this.2.2.1,
      hf.2.2.2.1 ▸ this.2.2.2⟩
  | writeT c v k ih =>
    have hf := WriteT_fields s t c v
    unfold runAction
    rcases hw : WriteT s t c v with ⟨ok, t2⟩
    rw [hw] at hf
    have := ih ok s t2
    simp only at hf
    exact ⟨hf.1 ▸ this.1, hf.2.1 ▸ this.2.1, hf.2.2.1 ▸ this.2.2.1,
      hf.2.2.2.1 ▸ this.2.2.2⟩
  | getTVar n k ih => exact ih (GetTVar t n) s t
  | putTVar n v k ih =>
    have hpt : (PutTVar t n v).metadata.version = t.metadata.version ∧
        (PutTVar t n v).metadata.status = t.metadata.status ∧
        (PutTVar t n v).id = t.id ∧ (PutTVar t n v).isScanning = t.isScanning := by
      unfold PutTVar
      split <;> exact ⟨rfl, rfl, rfl, rfl⟩
    have := ih s (PutTVar t n v)
    exact ⟨hpt.1 ▸ this.1, hpt.2.1 ▸ this.2.1, hpt.2.2.1 ▸ this.2.2.1,
      hpt.2.2.2 ▸ this.2.2.2⟩

theorem runAll_fields {Val : Type} (C : Codec Val) (acts : List (ActionM Val)) (s : STM)
    (t : TxnState Val) :
    ((runAll C acts s t).2).metadata.version = t.metadata.version ∧
      ((runAll C acts s t).2).metadata.status = t.metadata.status ∧
      ((runAll C acts s t).2).id = t.id ∧
      ((runAll C acts s t).2).isScanning = t.isScanning := by
  induction acts generalizing s t with
  | nil => exact ⟨rfl, rfl, rfl, rfl⟩
  | cons a rest ih =>
    have hf := runAction_fields C a s t
    unfold runAll
    rcases hr : runAction C a s t with ⟨ok, s2, t2⟩
    rw [hr] at hf
    have := ih s2 t2
    simp only at hf
    exact ⟨hf.1 ▸ this.1, hf.2.1 ▸ this.2.1, hf.2.2.1 ▸ this.2.2.1,
      hf.2.2.2 ▸ this.2.2.2⟩

theorem executeActions_fields {Val : Type} (C : Codec Val) (acts : List (ActionM Val))
    (s : STM) (t : TxnState Val) :
    ((executeActions C acts s t).2.2).metadata.version = t.metadata.version ∧
      ((executeActions C acts s t).2.2).metadata.status = t.metadata.status ∧
      ((executeActions C acts s t).2.2).id = t.id ∧
      ((executeActions C acts s t).2.2).isScanning = t.isScanning := by
  induction acts generalizing s t with
  | nil => exact ⟨rfl, rfl, rfl, rfl⟩
  | cons a rest ih =>
    have hf := runAction_fields C a s t
    unfold executeActions
    rcases hr : runAction C a s t with ⟨ok, s2, t2⟩
    rw [hr] at hf
    simp only at hf
    cases ok with
    | true =>
      have := ih s2 t2
      exact ⟨hf.1 ▸ this.1, hf.2.1 ▸ this.2.1, hf.2.2.1 ▸ this.2.2.1,
        hf.2.2.2 ▸ this.2.2.2⟩
    | false => exact hf

theorem scanActions_fields {Val : Type} (C : Codec Val) (acts : List (ActionM Val))
    (s : STM) (t : TxnState Val) :
    ((scanActions C acts s t).2).metadata.version = t.metadata.version ∧
      ((scanActions C acts s t).2).metadata.status = t.metadata.status ∧
      ((scanActions C acts s t).2).id = t.id ∧
      ((scanActions C acts s t).2).isScanning = false := by
  have hf := runAll_fields C acts s { t with isScanning := true }
  unfold scanActions
  rcases hr : runAll C acts s { t with isScanning := true } with ⟨s2, t2⟩
  rw [hr] at hf
  exact ⟨hf.1, hf.2.1, hf.2.2.1, rfl⟩

theorem rollback_fields {Val : Type} (s : STM) (t : TxnState Val) :
    ((rollback s t).2).metadata.version = t.metadata.version ∧
      ((rollback s t).2).metadata.status = t.metadata.status ∧
      ((rollback s t).2).id = t.id := by
  exact ⟨rfl, rfl, rfl⟩

theorem commit_true_spec {Val : Type} (C : Codec Val) (s : STM) (t : TxnState Val)
    (s2 : STM) (t2 : TxnState Val) (h : commit C s t = (true, s2, t2)) :
    t2.metadata.readSet = [] ∧ t2.metadata.writeSet = [] ∧
      t2.metadata.oldValues = [] ∧ t2.metadata.version = t.metadata.version ∧
      t2.metadata.status = t.metadata.status ∧ t2.id = t.id := by
  unfold commit at h
  split at h
  · rcases hi : installLoop C t.id t.metadata.oldValues s t.metadata.writeSet with ⟨ok, s3⟩
    rw [hi] at h
    cases ok with
    | true =>
      have ht : ({ t with metadata :=
          { t.metadata with readSet := [], writeSet := [], oldValues := [] } } :
            TxnState Val) = t2 :=
        congrArg (fun p => p.2.2) h
      rw [← ht]
      exact ⟨rfl, rfl, rfl, rfl, rfl, rfl⟩
    | false => simp at h
  · simp at h

theorem commit_false_spec {Val : Type} (C : Codec Val) (s : STM) (t : TxnState Val)
    (s2 : STM) (t2 : TxnState Val) (h : commit C s t = (false, s2, t2)) : t2 = t := by
  unfold commit at h
  split at h
  · rcases hi : installLoop C t.id t.metadata.oldValues s t.metadata.writeSet with ⟨ok, s3⟩
    rw [hi] at h
    cases ok with
    | true => simp at h
    | false => exact (congrArg (fun p => p.2.2) h).symm
  · exact (congrArg (fun p => p.2.2) h).symm

theorem attempt_true_spec {Val : Type} (C : Codec Val) (acts : List (ActionM Val))
    (s : STM) (t : TxnState Val) (s2 : STM) (t2 : TxnState Val)
    (h : attempt C acts s t = (s2, t2, true)) :
    t2.metadata.status = true ∧ t2.metadata.version = t.metadata.version + 1 ∧
      t2.metadata.readSet = [] ∧ t2.metadata.writeSet = [] ∧
      t2.metadata.oldValues = [] ∧ t2.id = t.id := by
  unfold attempt at h
  have hsf := scanActions_fields C acts s
    { t with metadata := { t.metadata with status := false } }
  rcases hscan : scanActions C acts s
      { t with metadata := { t.metadata with status := false } } with ⟨s1, t1⟩
  rw [hscan] at h hsf
  simp only at h hsf
  rcases hown : takeOwnerships s1 t1 with ⟨ok1, sb⟩
  rw [hown] at h
  cases ok1 with
  | false =>
    simp only at h
    exact Bool.noConfusion (congrArg (fun p => p.2.2) h)
  | true =>
    simp only at h
    rcases hex : executeActions C acts sb t1 with ⟨ok2, s3, t3⟩
    rw [hex] at h
    have hef := executeActions_fields C acts sb t1
    rw [hex] at hef
    simp only at hef
    cases ok2 with
    | false =>
      simp only at h
      exact Bool.noConfusion (congrArg (fun p => p.2.2) h)
    | true =>
      simp only at h
      rcases hcm : commit C s3 t3 with ⟨ok3, s4, t4⟩
      rw [hcm] at h
      cases ok3 with
      | true =>
        simp only at h
        have hcs := commit_true_spec C s3 t3 s4 t4 hcm
        have ht2 : t2 = { t4 with metadata :=
            { t4.metadata with status := true, version := t4.metadata.version + 1 } } :=
          (congrArg (fun p => p.2.1) h).symm
        rw [ht2]
        refine ⟨rfl, ?_, hcs.1, hcs.2.1, hcs.2.2.1, ?_⟩
        · show t4.metadata.version + 1 = t.metadata.version + 1
          rw [hcs.2.2.2.1, hef.1, hsf.1]
        · show t4.id = t.id
          rw [hcs.2.2.2.2.2, hef.2.2.1, hsf.2.2.1]
      | false =>
        simp only at h
        exact Bool.noConfusion (congrArg (fun p => p.2.2) h)

theorem attempt_false_spec {Val : Type} (C : Codec Val) (acts : List (ActionM Val))
    (s : STM) (t : TxnState Val) (s2 : STM) (t2 : TxnState Val)
    (h : attempt C acts s t = (s2, t2, false)) :
    t2.metadata.version = t.metadata.version ∧ t2.id = t.id := by
  unfold attempt at h
  have hsf := scanActions_fields C acts s
    { t with metadata := { t.metadata with status := false } }
  rcases hscan : scanActions C acts s
      { t with metadata := { t.metadata with status := false } } with ⟨s1, t1⟩
  rw [hscan] at h hsf
  simp only at h hsf
  rcases hown : takeOwnerships s1 t1 with ⟨ok1, sb⟩
  rw [hown] at h
  cases ok1 with
  | false =>
    simp only at h
    have ht2 : t2 = (rollback sb t1).2 := (congrArg (fun p => p.2.1) h).symm
    rw [ht2]
    exact ⟨(rollback_fields sb t1).1.trans hsf.1,
      (rollback_fields sb t1).2.2.trans hsf.2.2.1⟩
  | true =>
    simp only at h
    rcases hex : executeActions C acts sb t1 with ⟨ok2, s3, t3⟩
    rw [hex] at h
    have hef := executeActions_fields C acts sb t1
    rw [hex] at hef
    simp only at hef
    cases ok2 with
    | false =>
      simp only at h
      have ht2 : t2 = (rollback s3 t3).2 := (congrArg (fun p => p.2.1) h).symm
      rw [ht2]
      refine ⟨((rollback_fields s3 t3).1.trans hef.1).trans hsf.1,
        ((rollback_fields s3 t3).2.2.trans hef.2.2.1).trans hsf.2.2.1⟩
    | true =>
      simp only at h
      rcases hcm : commit C s3 t3 with ⟨ok3, s4, t4⟩
      rw [hcm] at h
      cases ok3 with
      | true =>
        simp only at h
        exact Bool.noConfusion (congrArg (fun p => p.2.2) h)
      | false =>
        simp only at h
        have ht2 : t2 = (rollback s4 t3).2 := (congrArg (fun p => p.2.1) h).symm
        rw [ht2]
        refine ⟨((rollback_fields s4 t3).1.trans hef.1).trans hsf.1,
          ((rollback_fields s4 t3).2.2.trans hef.2.2.1).trans hsf.2.2.1⟩

theorem goLoop_some_spec {Val : Type} (C : Codec Val) (acts : List (ActionM Val))
    (fuel : Nat) (s : STM) (t : TxnState Val) (s2 : STM) (t2 : TxnState Val)
    (h : goLoop C acts fuel s t = some (s2, t2)) :
    t2.metadata.status = true ∧ t2.metadata.version = t.metadata.version + 1 ∧
      t2.metadata.readSet = [] ∧ t2.metadata.writeSet = [] ∧
      t2.metadata.oldValues = [] := by
  induction fuel generalizing s t with
  | zero => exact absurd h (by simp [goLoop])
  | succ fuel ih =>
    unfold goLoop at h
    rcases ha : attempt C acts s t with ⟨s3, t3, done⟩
    rw [ha] at h
    cases done with
    | true =>
      simp only [Option.some_inj] at h
      have hsp := attempt_true_spec C acts s t s3 t3 ha
      have hs2 : t2 = t3 := (congrArg (fun p => p.2) h).symm
      rw [hs2]
      exact ⟨hsp.1, hsp.2.1, hsp.2.2.1, hsp.2.2.2.1, hsp.2.2.2.2.1⟩
    | false =>
      simp only at h
      have := ih s3 t3 h
      exact ⟨this.1, (attempt_false_spec C acts s t s3 t3 ha).1 ▸ this.2.1,
        this.2.2.1, this.2.2.2.1, this.2.2.2.2⟩

theorem execN_version {Val : Type} (C : Codec Val) (acts : List (ActionM Val))
    (fuel n : Nat) (s : STM) (t : TxnState Val) (s2 : STM) (t2 : TxnState Val)
    (h : execN C acts fuel n s t = some (s2, t2)) :
    t2.metadata.version = t.metadata.version + n := by
  induction n generalizing s t with
  | zero =>
    unfold execN at h
    simp only [Option.some_inj, Prod.mk.injEq] at h
    rw [← h.2]
    omega
  | succ n ih =>
    unfold execN at h
    rcases hg : goLoop C acts fuel s t with _ | ⟨s3, t3⟩
    · rw [hg] at h; cases h
    · rw [hg] at h
      simp only at h
      have h1 := (goLoop_some_spec C acts fuel s t s3 t3 hg).2.1
      have h2 := ih s3 t3 h
      omega

/-! ## Further shared lemmas -/

theorem olookup_releaseLoop_keep (tid : Nat) (ws : List Nat) (s : STM) (c : Nat)
    (h : olookup s.ownerships c ≠ some tid) :
    olookup (releaseLoop tid s ws).ownerships c = olookup s.ownerships c := by
  induction ws generalizing s with
  | nil => rfl
  | cons x rest ih =>
    unfold releaseLoop
    split
    · rename_i hx
      by_cases hxc : x = c
      · subst hxc
        exact absurd hx h
      · rw [ih { s with ownerships := mset s.ownerships x none }
            (by rw [olookup_mset_ne _ _ _ _ hxc]; exact h)]
        exact olookup_mset_ne _ _ _ _ hxc
    · exact ih s h

theorem validateLoop_eq_all {Val : Type} (C : Codec Val) (s : STM)
    (old : List (Nat × Val)) (ws rs : List Nat) :
    validateLoop C s old ws rs =
      rs.all (fun c => decide (encodeOpt C (mlookup old c) = memRead s.mem c) || contains ws c) := by
  induction rs with
  | nil => rfl
  | cons c rest ih =>
    unfold validateLoop
    split
    · rename_i hc
      simp only [List.all_cons]
      rw [decide_eq_false hc.1, hc.2]
      rfl
    · rename_i hc
      simp only [List.all_cons, ih]
      rcases Decidable.not_and_iff_or_not.mp hc with h1 | h2
      · rw [decide_eq_true (Decidable.not_not.mp h1)]
        rfl
      · have : contains ws c = true := by
          cases hcc : contains ws c with
          | false => exact absurd hcc h2
          | true => rfl
        rw [this, Bool.or_true]
        rfl

theorem installLoop_conflict {Val : Type} (C : Codec Val) (tid : Nat)
    (old : List (Nat × Val)) (ws₁ : List Nat) (c : Nat) (ws₂ : List Nat) (s : STM)
    (h1 : ∀ x ∈ ws₁, olookup s.ownerships x = some tid)
    (h2 : olookup s.ownerships c ≠ some tid)
    (h3 : (ws₁ ++ [c]).Nodup)
    (h4 : ∀ x ∈ ws₁, x < s.mem.length) :
    (installLoop C tid old s (ws₁ ++ c :: ws₂)).1 = false ∧
      (∀ x ∈ ws₁, memRead ((installLoop C tid old s (ws₁ ++ c :: ws₂)).2).mem x =
        encodeOpt C (mlookup old x)) ∧
      (∀ x, x ∉ ws₁ → memRead ((installLoop C tid old s (ws₁ ++ c :: ws₂)).2).mem x =
        memRead s.mem x) := by
  induction ws₁ generalizing s with
  | nil =>
    have : installLoop C tid old s ([] ++ c :: ws₂) = (false, s) := by
      unfold installLoop
      simp only [List.nil_append]
      rw [if_neg h2]
    rw [this]
    exact ⟨rfl, fun x hx => absurd hx (List.not_mem_nil x), fun x _ => rfl⟩
  | cons a ws₁ ih =>
    have ha : olookup s.ownerships a = some tid := h1 a (List.mem_cons_self a ws₁)
    have hna : a ∉ ws₁ ++ [c] := (List.nodup_cons.mp (by simpa using h3)).1
    have hanw : a ∉ ws₁ := fun hm => hna (List.mem_append_left _ hm)
    have hanc : a ≠ c := fun he => hna (he ▸ List.mem_append_right _ (List.mem_singleton.mpr rfl))
    have halen : a < s.mem.length := h4 a (List.mem_cons_self a ws₁)
    have hstep : installLoop C tid old s ((a :: ws₁) ++ c :: ws₂) =
        installLoop C tid old
          { s with
            mem := s.mem.set a (encodeOpt C (mlookup old a)),
            ownerships := mset s.ownerships a none } (ws₁ ++ c :: ws₂) := by
      simp only [List.cons_append, installLoop]
      rw [if_pos ha]
      rfl
    set s1 : STM :=
      { s with
        mem := s.mem.set a (encodeOpt C (mlookup old a)),
        ownerships := mset s.ownerships a none } with hs1
    have hlen1 : s1.mem.length = s.mem.length := by
      rw [hs1]
      exact List.length_set ..
    have ih1 : ∀ x ∈ ws₁, olookup s1.ownerships x = some tid := by
      intro x hx
      have hxa : a ≠ x := fun he => hanw (he ▸ hx)
      rw [hs1]
      show olookup (mset s.ownerships a none) x = some tid
      rw [olookup_mset_ne _ _ _ _ hxa]
      exact h1 x (List.mem_cons_of_mem a hx)
    have ih2 : olookup s1.ownerships c ≠ some tid := by
      rw [hs1]
      show olookup (mset s.ownerships a none) c ≠ some tid
      rw [olookup_mset_ne _ _ _ _ hanc]
      exact h2
    have ih3 : (ws₁ ++ [c]).Nodup := (List.nodup_cons.mp (by simpa using h3)).2
    have ih4 : ∀ x ∈ ws₁, x < s1.mem.length := by
      intro x hx
      rw [hlen1]
      exact h4 x (List.mem_cons_of_mem a hx)
    obtain ⟨r1, r2, r3⟩ := ih s1 ih1 ih2 ih3 ih4
    rw [hstep]
    refine ⟨r1, ?_, ?_⟩
    · intro x hx
      rcases List.mem_cons.mp hx with hxa | hxw
      · subst hxa
        rw [r3 x hanw, hs1]
        show memRead (s.mem.set x (encodeOpt C (mlookup old x))) x = _
        exact memRead_set_self _ _ _ halen
      · exact r2 x hxw
    · intro x hx
      have hxa : x ≠ a := fun he => hx (he ▸ List.mem_cons_self a ws₁)
      have hxw : x ∉ ws₁ := fun hm => hx (List.mem_cons_of_mem a hm)
      rw [r3 x hxw, hs1]
      show memRead (s.mem.set a (encodeOpt C (mlookup old a))) x = _
      exact memRead_set_ne _ _ _ _ (fun he => hxa he.symm)

theorem takeLoop_conflict (tid : Nat) (ws₁ : List Nat) (c : Nat) (ws₂ : List Nat)
    (s : STM) (j : Nat)
    (h1 : ∀ x ∈ ws₁, olookup s.ownerships x = none)
    (h2 : olookup s.ownerships c = some j) (hj : j ≠ tid)
    (h3 : (ws₁ ++ [c]).Nodup) :
    (takeOwnershipsLoop tid s (ws₁ ++ c :: ws₂)).1 = false ∧
      (∀ x ∈ ws₁, olookup ((takeOwnershipsLoop tid s (ws₁ ++ c :: ws₂)).2).ownerships x
        = some tid) ∧
      (∀ x, x ∉ ws₁ → olookup ((takeOwnershipsLoop tid s (ws₁ ++ c :: ws₂)).2).ownerships x
        = olookup s.ownerships x) ∧
      ((takeOwnershipsLoop tid s (ws₁ ++ c :: ws₂)).2).mem = s.mem := by
  induction ws₁ generalizing s with
  | nil =>
    have hres : takeOwnershipsLoop tid s ([] ++ c :: ws₂) = (false, s) := by
      unfold takeOwnershipsLoop
      simp only [List.nil_append]
      rw [h2]
      simp only [if_neg hj]
    rw [hres]
    exact ⟨rfl, fun x hx => absurd hx (List.not_mem_nil x), fun x _ => rfl, rfl⟩
  | cons a ws₁ ih =>
    have ha : olookup s.ownerships a = none := h1 a (List.mem_cons_self a ws₁)
    have hna : a ∉ ws₁ ++ [c] := (List.nodup_cons.mp (by simpa using h3)).1
    have hanw : a ∉ ws₁ := fun hm => hna (List.mem_append_left _ hm)
    have hanc : a ≠ c := fun he => hna (he ▸ List.mem_append_right _ (List.mem_singleton.mpr rfl))
    have hstep : takeOwnershipsLoop tid s ((a :: ws₁) ++ c :: ws₂) =
        takeOwnershipsLoop tid
          { s with ownerships := mset s.ownerships a (some tid) } (ws₁ ++ c :: ws₂) := by
      simp only [List.cons_append, takeOwnershipsLoop, ha]
      rfl
    set s1 : STM := { s with ownerships := mset s.ownerships a (some tid) } with hs1
    have ih1 : ∀ x ∈ ws₁, olookup s1.ownerships x = none := by
      intro x hx
      have hxa : a ≠ x := fun he => hanw (he ▸ hx)
      rw [hs1]
      show olookup (mset s.ownerships a (some tid)) x = none
      rw [olookup_mset_ne _ _ _ _ hxa]
      exact h1 x (List.mem_cons_of_mem a hx)
    have ih2 : olookup s1.ownerships c = some j := by
      rw [hs1]
      show olookup (mset s.ownerships a (some tid)) c = some j
      rw [olookup_mset_ne _ _ _ _ hanc]
      exact h2
    have ih3 : (ws₁ ++ [c]).Nodup := (List.nodup_cons.mp (by simpa using h3)).2
    obtain ⟨r1, r2, r3, r4⟩ := ih s1 ih1 ih2 ih3
    rw [hstep]
    refine ⟨r1, ?_, ?_, r4⟩
    · intro x hx
      rcases List.mem_cons.mp hx with hxa | hxw
      · subst hxa
        rw [r3 x hanw, hs1]
        show olookup (mset s.ownerships x (some tid)) x = some tid
        exact olookup_mset_self _ _ _
      · exact r2 x hxw
    · intro x hx
      have hxa : a ≠ x := fun he => hx (he ▸ List.mem_cons_self a ws₁)
      have hxw : x ∉ ws₁ := fun hm => hx (List.mem_cons_of_mem a hm)
      rw [r3 x hxw, hs1]
      show olookup (mset s.ownerships a (some tid)) x = _
      exact olookup_mset_ne _ _ _ _ hxa

/-- Nodup is preserved by appending a fresh element, as `ReadT`/`WriteT` do. -/
theorem nodup_append_singleton {l : List Nat} {c : Nat} (h : l.Nodup) (hc : c ∉ l) :
    (l ++ [c]).Nodup := by
  simp [List.nodup_append, h, hc]

/-! ## Concrete instances used to evaluate the claims -/

/-- A concrete injective codec on `Nat` payloads (a stand-in for `gob` on a
fixed payload type): `enc n = [n+1]`, so every encoding is nonempty and
decoding the empty buffer fails. -/
def CN : Codec Nat :=
  { enc := fun v => some [v + 1],
    dec := fun b => match b with | [n + 1] => some n | _ => none }

/-- Shared memory with one cell whose buffer `[3]` encodes the payload `2`,
owned by transaction identity `7`. -/
def sW1 : STM := { mem := [[3]], ownerships := [(0, some 7)] }

/-- An execute-phase transaction (identity `7`) whose write-set holds the
single cell `0`. -/
def tW1 : TxnState Nat :=
  { metadata :=
      { name := "t1", status := false, version := 0,
        oldValues := [], readSet := [], writeSet := [0] },
    isScanning := false, tvars := [], id := 7 }

/-- Shared memory with one unowned cell whose buffer `[3]` encodes `2`. -/
def sW2 : STM := { mem := [[3]], ownerships := [] }

/-- A freshly built (scan-phase) transaction with identity `1`. -/
def tW2 : TxnState Nat := doneTxn "t2" [] 1

/-! ## C1 -/

/-- C1 (amended): in execute phase, after `WriteT` stages `w` for cell `c`,
a subsequent `ReadT` of `c` succeeds but returns the decoded *current
committed* payload `v` of the cell — not the staged `w` — and overwrites the
staged entry `oldValues[c]` with `v`, so the staged write is discarded. -/
theorem claim_C1 {Val : Type} (C : Codec Val) (s : STM) (t : TxnState Val) (c : Nat)
    (w v : Val) (b2 : List Nat)
    (hph : t.isScanning = false)
    (hown : olookup s.ownerships c = some t.id)
    (hrd : readData C (memRead s.mem c) = some (v, b2)) :
    (WriteT s t c w).1 = true ∧
      mlookup ((WriteT s t c w).2).metadata.oldValues c = some w ∧
      (ReadT C s (WriteT s t c w).2 c).1 = true ∧
      (ReadT C s (WriteT s t c w).2 c).2.2.2 = some v ∧
      mlookup ((ReadT C s (WriteT s t c w).2 c).2.2.1).metadata.oldValues c = some v := by
  refine ⟨?_, ?_, ?_, ?_, ?_⟩ <;>
    simp [WriteT, ReadT, hph, hown, hrd, mlookup_mset_self]

/-- C1 (witness): evaluating the amended theorem at a concrete state: the
cell's committed payload is `2`, the staged write is `5`; the read returns
`2` and the staged entry becomes `2`. -/
theorem claim_C1_witness :
    (WriteT sW1 tW1 0 5).1 = true ∧
      mlookup ((WriteT sW1 tW1 0 5).2).metadata.oldValues 0 = some 5 ∧
      (ReadT CN sW1 (WriteT sW1 tW1 0 5).2 0).1 = true ∧
      (ReadT CN sW1 (WriteT sW1 tW1 0 5).2 0).2.2.2 = some 2 ∧
      mlookup ((ReadT CN sW1 (WriteT sW1 tW1 0 5).2 0).2.2.1).metadata.oldValues 0 = some 2 :=
  claim_C1 CN sW1 tW1 0 5 2 [3] rfl (by decide) (by decide)

/-- C1 (counterexample): at the same concrete state, the execute-phase
write-then-read does *not* return the staged value `5`, and the staged
entry no longer holds `5` afterwards — contradicting the claim that the
read returns the staged value and that the staged value remains what will
be installed at commit. -/
theorem claim_C1_counterexample :
    (WriteT sW1 tW1 0 5).1 = true ∧
      mlookup ((WriteT sW1 tW1 0 5).2).metadata.oldValues 0 = some 5 ∧
      (ReadT CN sW1 (WriteT sW1 tW1 0 5).2 0).1 = true ∧
      (ReadT CN sW1 (WriteT sW1 tW1 0 5).2 0).2.2.2 ≠ some 5 ∧
      mlookup ((ReadT CN sW1 (WriteT sW1 tW1 0 5).2 0).2.2.1).metadata.oldValues 0 ≠ some 5 := by
  decide

/-! ## C2 -/

/-- C2 (amended): a successful scan-phase `ReadT` records the cell into the
read-set (when it is in neither set) and returns the decoded payload, but
stores *nothing* into the backup/snapshot map `oldValues`; the snapshot
entry is written only by the execute-phase `ReadT`, which stores the value
observed at that (execute-time) read. -/
theorem claim_C2 {Val : Type} (C : Codec Val) (s : STM) (t u : TxnState Val) (c : Nat)
    (v : Val) (b2 : List Nat)
    (hph : t.isScanning = true)
    (hrd : readData C (memRead s.mem c) = some (v, b2))
    (hu : u.isScanning = false) :
    ((ReadT C s t c).2.2.1).metadata.oldValues = t.metadata.oldValues ∧
      (contains t.metadata.writeSet c = false → contains t.metadata.readSet c = false →
        ((ReadT C s t c).2.2.1).metadata.readSet = t.metadata.readSet ++ [c]) ∧
      (ReadT C s t c).2.2.2 = some v ∧
      ((ReadT C s u c).2.2.1).metadata.oldValues = mset u.metadata.oldValues c v := by
  refine ⟨?_, ?_, ?_, ?_⟩
  · simp only [ReadT, hrd]
    rw [if_pos hph]
    split <;> rfl
  · intro h1 h2
    simp [ReadT, hrd, hph, h1, h2]
  · simp only [ReadT, hrd]
    rw [if_pos hph]
    split <;> rfl
  · simp [ReadT, hrd, hu]

/-- C2 (witness): evaluating the amended theorem at a concrete state: the
scan-phase read records the read-set and leaves the snapshot map empty; the
execute-phase read writes the observed value `2`. -/
theorem claim_C2_witness :
    ((ReadT CN sW2 tW2 0).2.2.1).metadata.oldValues = tW2.metadata.oldValues ∧
      ((ReadT CN sW2 tW2 0).2.2.1).metadata.readSet = tW2.metadata.readSet ++ [0] ∧
      (ReadT CN sW2 tW2 0).2.2.2 = some 2 ∧
      ((ReadT CN sW2 { tW2 with isScanning := false } 0).2.2.1).metadata.oldValues =
        mset tW2.metadata.oldValues 0 2 := by
  have h := claim_C2 CN sW2 tW2 { tW2 with isScanning := false } 0 2 [3] rfl (by decide) rfl
  exact ⟨h.1, h.2.1 (by decide) (by decide), h.2.2.1, h.2.2.2⟩

/-- C2 (counterexample): at a concrete scan-phase read, the read-set is
recorded but the snapshot map stays empty — contradicting the claim that
the scan-time `ReadT` "also saves the payload observed at that scan-time
read into the snapshot map". -/
theorem claim_C2_counterexample :
    (ReadT CN sW2 tW2 0).1 = true ∧
      ((ReadT CN sW2 tW2 0).2.2.1).metadata.readSet = [0] ∧
      ((ReadT CN sW2 tW2 0).2.2.1).metadata.oldValues = [] ∧
      mlookup ((ReadT CN sW2 tW2 0).2.2.1).metadata.oldValues 0 = none := by
  decide

/-! ## C9 -/

/-- C9: during scan phase `GetTVar` returns `nil` for every name regardless
of the scratch map and `PutTVar` is a no-op; outside scan phase `GetTVar`
reads the scratch map (most recent binding) and `PutTVar` stores the value,
so a read after a store of the same name sees the stored value and stores
under other names do not disturb it. -/
theorem claim_C9 {Val : Type} (t : TxnState Val) (n n2 : String) (v w : Val) :
    (t.isScanning = true → GetTVar t n = none ∧ PutTVar t n v = t) ∧
      (t.isScanning = false →
        GetTVar t n = mlookup t.tvars n ∧
        GetTVar (PutTVar t n v) n = some v ∧
        (n2 ≠ n → GetTVar (PutTVar t n2 w) n = GetTVar t n)) := by
  constructor
  · intro h
    exact ⟨by simp [GetTVar, h], by simp [PutTVar, h]⟩
  · intro h
    refine ⟨by simp [GetTVar, h], ?_, ?_⟩
    · simp [GetTVar, PutTVar, h, mlookup_mset_self]
    · intro hne
      simp [GetTVar, PutTVar, h, mlookup_mset_ne _ _ _ _ hne]

/-- A scan-phase transaction carrying a seeded transactional variable. -/
def tW9 : TxnState Nat := doneTxn "t9" [("y", 9)] 2

/-- C9 (witness): the seeded variable reads as `nil` during scan, and a
store-then-read outside scan returns the stored value. -/
theorem claim_C9_witness :
    GetTVar tW9 "y" = none ∧
      GetTVar (PutTVar { tW9 with isScanning := false } "x" 5) "x" = some 5 := by
  refine ⟨((claim_C9 tW9 "y" "z" 0 0).1 rfl).1, ?_⟩
  exact ((claim_C9 { tW9 with isScanning := false } "x" "z" 5 0).2 rfl).2.1

/-! ## C10 -/

/-- C10: every `ReadT` and `WriteT`, in any phase, preserves
duplicate-freeness of the read-set and the write-set, and a cell already in
the write-set is never added to the read-set (the read-set is unchanged by
a `ReadT` of such a cell). -/
theorem claim_C10 {Val : Type} (C : Codec Val) (s : STM) (t : TxnState Val) (c : Nat)
    (v : Val)
    (hr : t.metadata.readSet.Nodup) (hw : t.metadata.writeSet.Nodup) :
    (((ReadT C s t c).2.2.1).metadata.readSet.Nodup ∧
      ((ReadT C s t c).2.2.1).metadata.writeSet.Nodup) ∧
    (((WriteT s t c v).2).metadata.readSet.Nodup ∧
      ((WriteT s t c v).2).metadata.writeSet.Nodup) ∧
    (contains t.metadata.writeSet c = true →
      ((ReadT C s t c).2.2.1).metadata.readSet = t.metadata.readSet) := by
  refine ⟨?_, ?_, ?_⟩
  · unfold ReadT
    cases hrd : readData C (memRead s.mem c) with
    | none => exact ⟨hr, hw⟩
    | some p =>
      obtain ⟨v2, b2⟩ := p
      simp only
      split
      · split
        · rename_i hcond
          simp only [Bool.and_eq_true, Bool.not_eq_true'] at hcond
          exact ⟨nodup_append_singleton hr ((contains_eq_false_iff _ _).mp hcond.2), hw⟩
        · exact ⟨hr, hw⟩
      · exact ⟨hr, hw⟩
  · unfold WriteT
    split
    · split
      · rename_i hcond
        simp only [Bool.not_eq_true'] at hcond
        exact ⟨hr, nodup_append_singleton hw ((contains_eq_false_iff _ _).mp hcond)⟩
      · exact ⟨hr, hw⟩
    · split
      · exact ⟨hr, hw⟩
      · exact ⟨hr, hw⟩
  · intro hcw
    unfold ReadT
    cases hrd : readData C (memRead s.mem c) with
    | none => rfl
    | some p =>
      obtain ⟨v2, b2⟩ := p
      simp only
      split
      · simp [hcw]
      · rfl

/-- C10 (witness): evaluating the invariant-preservation theorem at a
concrete scan-phase read and write. -/
theorem claim_C10_witness :
    ((ReadT CN sW2 tW2 0).2.2.1).metadata.readSet.Nodup ∧
      ((WriteT sW2 tW2 0 5).2).metadata.writeSet.Nodup := by
  have h := claim_C10 CN sW2 tW2 0 5 (by decide) (by decide)
  exact ⟨h.1.1, h.2.1.2⟩

/-! ## C6 -/

/-- C6: commit-time validation passes exactly when every read-set member
either is also in the write-set (skipped, treated as write-only) or has
current cell bytes equal to the re-encoded snapshot (`oldValues`) bytes;
and any mismatch on a read-set member that is not in the write-set makes
`commit` return `false`. -/
theorem claim_C6 {Val : Type} (C : Codec Val) (s : STM) (t : TxnState Val) :
    (validateLoop C s t.metadata.oldValues t.metadata.writeSet t.metadata.readSet = true ↔
      ∀ c ∈ t.metadata.readSet,
        encodeOpt C (mlookup t.metadata.oldValues c) = memRead s.mem c ∨
          contains t.metadata.writeSet c = true) ∧
    (∀ c ∈ t.metadata.readSet, contains t.metadata.writeSet c = false →
      encodeOpt C (mlookup t.metadata.oldValues c) ≠ memRead s.mem c →
      (commit C s t).1 = false) := by
  have hval := validateLoop_eq_all C s t.metadata.oldValues t.metadata.writeSet
    t.metadata.readSet
  have hiff : validateLoop C s t.metadata.oldValues t.metadata.writeSet
      t.metadata.readSet = true ↔
      ∀ c ∈ t.metadata.readSet,
        encodeOpt C (mlookup t.metadata.oldValues c) = memRead s.mem c ∨
          contains t.metadata.writeSet c = true := by
    rw [hval]
    simp only [List.all_eq_true, Bool.or_eq_true, decide_eq_true_eq]
  refine ⟨hiff, ?_⟩
  intro c hc h1 h2
  cases hv : validateLoop C s t.metadata.oldValues t.metadata.writeSet
      t.metadata.readSet with
  | true =>
    exfalso
    rcases hiff.mp hv c hc with he | hw2
    · exact h2 he
    · rw [h1] at hw2
      cases hw2
  | false =>
    unfold commit
    rw [hv]
    simp

/-- Shared memory whose single unowned cell holds bytes `[9]`. -/
def sW6 : STM := { mem := [[9]], ownerships := [] }

/-- A committing transaction whose snapshot for read-only cell `0` encodes
to `[3]`, mismatching the cell's current bytes `[9]`. -/
def tW6 : TxnState Nat :=
  { metadata :=
      { name := "t6", status := false, version := 0,
        oldValues := [(0, 2)], readSet := [0], writeSet := [] },
    isScanning := false, tvars := [], id := 5 }

/-- C6 (witness): the mismatching read-set member makes the concrete commit
fail. -/
theorem claim_C6_witness : (commit CN sW6 tW6).1 = false :=
  (claim_C6 CN sW6 tW6).2 0 (by decide) (by decide) (by decide)

/-! ## C7 -/

/-- C7: every successful run of the retry loop (one `exec` of the
transaction) ends with `status = true`, `version` incremented by exactly
one, and the read-set, write-set and backup/staging map reset; hence `n`
successful `exec` calls on a transaction starting at version `0` leave
`version = n`. -/
theorem claim_C7 {Val : Type} (C : Codec Val) (acts : List (ActionM Val))
    (fuel n : Nat) (s s2 : STM) (t t2 : TxnState Val) :
    (goLoop C acts fuel s t = some (s2, t2) →
      t2.metadata.status = true ∧ t2.metadata.version = t.metadata.version + 1 ∧
      t2.metadata.readSet = [] ∧ t2.metadata.writeSet = [] ∧
      t2.metadata.oldValues = []) ∧
    (t.metadata.version = 0 → execN C acts fuel n s t = some (s2, t2) →
      t2.metadata.version = n) := by
  constructor
  · exact goLoop_some_spec C acts fuel s t s2 t2
  · intro h0 h
    have := execN_version C acts fuel n s t s2 t2 h
    omega

/-- A freshly built transaction with no actions, identity `4`. -/
def tW7 : TxnState Nat := doneTxn "t7" [] 4

/-- The state of `tW7` after two successful runs. -/
def tF7 : TxnState Nat :=
  { metadata :=
      { name := "t7", status := true, version := 2,
        oldValues := [], readSet := [], writeSet := [] },
    isScanning := false, tvars := [], id := 4 }

/-- C7 (witness): two successful runs of a trivial transaction leave
`version = 2`. -/
theorem claim_C7_witness :
    tW7.metadata.version = 0 ∧
      ((execN CN [] 1 2 sW2 tW7).getD (sW2, tW7)).2.metadata.version = 2 := by
  have h : execN CN ([] : List (ActionM Nat)) 1 2 sW2 tW7 = some (sW2, tF7) := by decide
  refine ⟨rfl, ?_⟩
  rw [h]
  exact (claim_C7 CN [] 1 2 sW2 sW2 tW7 tF7).2 rfl h

/-! ## C8 -/

/-- C8: provided every ownership entry held by the transaction is a
write-set member (which the protocol guarantees, since ownership is only
ever taken over write-set cells), `rollback` leaves every cell payload
unchanged, releases exactly the entries held by this transaction (entries
of other transactions are untouched), clears the read-set, write-set and
backup/staging map, and on a never-executed transaction (all sets empty) it
returns the state entirely unchanged. -/
theorem claim_C8 {Val : Type} (s : STM) (t : TxnState Val)
    (h : ∀ c, olookup s.ownerships c = some t.id → contains t.metadata.writeSet c = true) :
    (rollback s t).1.mem = s.mem ∧
      (∀ c, olookup ((rollback s t).1).ownerships c ≠ some t.id) ∧
      (∀ c, olookup s.ownerships c ≠ some t.id →
        olookup ((rollback s t).1).ownerships c = olookup s.ownerships c) ∧
      ((rollback s t).2).metadata.readSet = [] ∧
      ((rollback s t).2).metadata.writeSet = [] ∧
      ((rollback s t).2).metadata.oldValues = [] ∧
      ((rollback s t).2).tvars = t.tvars ∧
      (t.metadata.readSet = [] → t.metadata.writeSet = [] → t.metadata.oldValues = [] →
        rollback s t = (s, t)) := by
  refine ⟨releaseLoop_mem_eq _ _ _, ?_, ?_, rfl, rfl, rfl, rfl, ?_⟩
  · intro c hc
    by_cases hm : c ∈ t.metadata.writeSet
    · exact olookup_releaseLoop_of_mem _ _ _ _ hm hc
    · have hc2 : olookup (releaseLoop t.id s t.metadata.writeSet).ownerships c =
          some t.id := hc
      rw [olookup_releaseLoop_not_mem _ _ _ _ hm] at hc2
      exact hm ((contains_iff_mem _ _).mp (h c hc2))
  · intro c hc
    exact olookup_releaseLoop_keep _ _ _ _ hc
  · intro h1 h2 h3
    obtain ⟨⟨nm, st, ver, ov, rs, ws⟩, isc, tv, tid⟩ := t
    simp only at h1 h2 h3
    subst h1
    subst h2
    subst h3
    rfl

/-- Shared memory with one cell owned by transaction identity `1`. -/
def sW8 : STM := { mem := [[3]], ownerships := [(0, some 1)] }

/-- A transaction (identity `1`) holding cell `0` in its write-set. -/
def tW8 : TxnState Nat :=
  { metadata :=
      { name := "t8", status := false, version := 0,
        oldValues := [(0, 2)], readSet := [], writeSet := [0] },
    isScanning := false, tvars := [], id := 1 }

/-- C8 (witness): rolling back the concrete transaction releases its
ownership of cell `0` and leaves the payloads unchanged. -/
theorem claim_C8_witness :
    (rollback sW8 tW8).1.mem = sW8.mem ∧
      olookup ((rollback sW8 tW8).1).ownerships 0 ≠ some tW8.id := by
  have hh : ∀ c, olookup sW8.ownerships c = some tW8.id →
      contains tW8.metadata.writeSet c = true := by
    intro c hc
    by_cases h0 : c = 0
    · subst h0
      decide
    · exfalso
      have hml : mlookup sW8.ownerships c = none := by
        show mlookup [((0 : Nat), some 1)] c = none
        unfold mlookup
        rw [if_neg (fun he => h0 he.symm)]
        rfl
      have : olookup sW8.ownerships c = none := by
        unfold olookup
        rw [hml]
      rw [this] at hc
      cases hc
  have h := claim_C8 sW8 tW8 hh
  exact ⟨h.1, h.2.1 0⟩

/-! ## C3 -/

/-- Shared memory with cells `0` and `1`, where cell `0` is owned by
transaction identity `1` but ownership of cell `1` is held by identity
`2`. -/
def sW3 : STM := { mem := [[1], [2]], ownerships := [(0, some 1), (1, some 2)] }

/-- A committing transaction (identity `1`) staging writes to cells `0` and
`1`, the second of which it does not own. -/
def tW3 : TxnState Nat :=
  { metadata :=
      { name := "t3", status := false, version := 0,
        oldValues := [(0, 5), (1, 6)], readSet := [], writeSet := [0, 1] },
    isScanning := false, tvars := [], id := 1 }

/-- C3 (counterexample): a commit that fails at the second write-set cell
(ownership lost) has already installed the first staged write, and the
following rollback does not undo it — the cell store is changed by a failed
commit, so the install step is not atomic. -/
theorem claim_C3_counterexample :
    (commit CN sW3 tW3).1 = false ∧
      ((rollback (commit CN sW3 tW3).2.1 (commit CN sW3 tW3).2.2).1).mem = [[6], [2]] ∧
      sW3.mem = [[1], [2]] ∧
      ([[6], [2]] : List (List Nat)) ≠ [[1], [2]] := by
  decide

/-- C3 (amended): a commit that fails during read-set validation leaves the
cell store unchanged; but a commit that fails at a write-set cell whose
ownership was lost has already installed the staged payloads of every
write-set cell that precedes the failing one (in write-set order), all
other cells are unchanged, and the subsequent rollback leaves the payloads
exactly as the failed commit left them — a proper subset of the staged
writes can remain installed. -/
theorem claim_C3 {Val : Type} (C : Codec Val) (s : STM) (t : TxnState Val)
    (ws₁ ws₂ : List Nat) (c : Nat)
    (hws : t.metadata.writeSet = ws₁ ++ c :: ws₂)
    (hval : validateLoop C s t.metadata.oldValues t.metadata.writeSet
      t.metadata.readSet = true)
    (h1 : ∀ x ∈ ws₁, olookup s.ownerships x = some t.id)
    (h2 : olookup s.ownerships c ≠ some t.id)
    (h3 : (ws₁ ++ [c]).Nodup)
    (h4 : ∀ x ∈ ws₁, x < s.mem.length) :
    (commit C s t).1 = false ∧
      (∀ x ∈ ws₁, memRead ((commit C s t).2.1).mem x =
        encodeOpt C (mlookup t.metadata.oldValues x)) ∧
      (∀ x, x ∉ ws₁ → memRead ((commit C s t).2.1).mem x = memRead s.mem x) ∧
      ((rollback (commit C s t).2.1 (commit C s t).2.2).1).mem =
        ((commit C s t).2.1).mem ∧
      (∀ (s0 : STM) (u : TxnState Val),
        validateLoop C s0 u.metadata.oldValues u.metadata.writeSet
          u.metadata.readSet = false →
        commit C s0 u = (false, s0, u)) := by
  obtain ⟨r1, r2, r3⟩ :=
    installLoop_conflict C t.id t.metadata.oldValues ws₁ c ws₂ s h1 h2 h3 h4
  have hcom : commit C s t =
      (false, (installLoop C t.id t.metadata.oldValues s t.metadata.writeSet).2, t) := by
    unfold commit
    rw [if_pos hval]
    rcases hins : installLoop C t.id t.metadata.oldValues s t.metadata.writeSet
      with ⟨ok, sI⟩
    cases ok with
    | true =>
      exfalso
      rw [hws] at hins
      rw [hins] at r1
      exact Bool.noConfusion r1
    | false => rfl
  refine ⟨?_, ?_, ?_, ?_, ?_⟩
  · rw [hcom]
  · intro x hx
    rw [hcom]
    show memRead ((installLoop C t.id t.metadata.oldValues s t.metadata.writeSet).2).mem x = _
    rw [hws]
    exact r2 x hx
  · intro x hx
    rw [hcom]
    show memRead ((installLoop C t.id t.metadata.oldValues s t.metadata.writeSet).2).mem x = _
    rw [hws]
    exact r3 x hx
  · exact releaseLoop_mem_eq _ _ _
  · intro s0 u hv
    unfold commit
    rw [hv]
    simp

/-- C3 (witness): evaluating the amended theorem at the concrete state: the
failed commit reports `false`, yet cell `0` (processed before the failing
cell `1`) holds its staged payload. -/
theorem claim_C3_witness :
    (commit CN sW3 tW3).1 = false ∧
      memRead ((commit CN sW3 tW3).2.1).mem 0 =
        encodeOpt CN (mlookup tW3.metadata.oldValues 0) := by
  have h := claim_C3 CN sW3 tW3 [0] [] 1 (by decide) (by decide) (by decide)
    (by decide) (by decide) (by decide)
  exact ⟨h.1, h.2.1 0 (by decide)⟩

/-! ## C4 -/

/-- Ascending insertion into a sorted list of cell indices. -/
def insertAsc (x : Nat) : List Nat → List Nat
  | [] => [x]
  | y :: rest => if x ≤ y then x :: y :: rest else y :: insertAsc x rest

/-- Insertion sort of cell indices into ascending order. -/
def sortAsc : List Nat → List Nat
  | [] => []
  | x :: rest => insertAsc x (sortAsc rest)

/-- Modelled from the spec: the acquire-all pass mandated by the
specification, which iterates the write-set in ascending cell-index order
(instead of the source's insertion order) with the same
claim/skip/fail-fast behaviour per cell.  Used to compare the source's
`takeOwnerships` against the spec's words. -/
def takeOwnershipsAsc (s : STM) (t : TxnState Val) : Bool × STM :=
  takeOwnershipsLoop t.id s (sortAsc t.metadata.writeSet)

/-- Shared memory with two cells; cell `0` is owned by a foreign
transaction (identity `9`) and cell `1` is free. -/
def sW4 : STM := { mem := [[1], [1]], ownerships := [(0, some 9)] }

/-- A transaction (identity `7`) whose write-set was built by inserting
cell `1` before cell `0`. -/
def tW4 : TxnState Nat :=
  { metadata :=
      { name := "t4", status := false, version := 0,
        oldValues := [], readSet := [], writeSet := [1, 0] },
    isScanning := false, tvars := [], id := 7 }

/-- C4 (counterexample): the source's acquisition differs from
ascending-index acquisition: with write-set insertion order `[1, 0]` and
cell `0` foreign-owned, the source claims cell `1` before failing on cell
`0`, whereas ascending-index acquisition conflicts immediately on cell `0`
and claims nothing. -/
theorem claim_C4_counterexample :
    takeOwnerships sW4 tW4 ≠ takeOwnershipsAsc sW4 tW4 ∧
      (takeOwnerships sW4 tW4).1 = false ∧
      olookup ((takeOwnerships sW4 tW4).2).ownerships 1 = some 7 ∧
      olookup ((takeOwnershipsAsc sW4 tW4).2).ownerships 1 = none := by
  decide

/-- C4 (amended): the acquire phase iterates the write-set in its stored
(insertion) order; on the first conflict it stops acquiring, leaving the
cells visited earlier claimed and all other ownership entries untouched,
and the rollback that follows releases every ownership the transaction
holds (assuming it held none before the attempt), leaving the cell
payloads unchanged throughout. -/
theorem claim_C4 {Val : Type} (s : STM) (t : TxnState Val)
    (ws₁ ws₂ : List Nat) (c j : Nat)
    (hws : t.metadata.writeSet = ws₁ ++ c :: ws₂)
    (h1 : ∀ x ∈ ws₁, olookup s.ownerships x = none)
    (h2 : olookup s.ownerships c = some j) (hj : j ≠ t.id)
    (h3 : (ws₁ ++ [c]).Nodup)
    (h5 : ∀ x, olookup s.ownerships x ≠ some t.id) :
    (takeOwnerships s t).1 = false ∧
      (∀ x ∈ ws₁, olookup ((takeOwnerships s t).2).ownerships x = some t.id) ∧
      (∀ x, x ∉ ws₁ →
        olookup ((takeOwnerships s t).2).ownerships x = olookup s.ownerships x) ∧
      ((takeOwnerships s t).2).mem = s.mem ∧
      (∀ x, olookup ((rollback (takeOwnerships s t).2 t).1).ownerships x ≠ some t.id) ∧
      ((rollback (takeOwnerships s t).2 t).1).mem = s.mem := by
  obtain ⟨r1, r2, r3, r4⟩ := takeLoop_conflict t.id ws₁ c ws₂ s j h1 h2 hj h3
  have hto : takeOwnerships s t = takeOwnershipsLoop t.id s (ws₁ ++ c :: ws₂) := by
    unfold takeOwnerships
    rw [hws]
  refine ⟨?_, ?_, ?_, ?_, ?_, ?_⟩
  · rw [hto]
    exact r1
  · intro x hx
    rw [hto]
    exact r2 x hx
  · intro x hx
    rw [hto]
    exact r3 x hx
  · rw [hto]
    exact r4
  · intro x
    set s1 : STM := (takeOwnerships s t).2 with hs1
    by_cases hm : x ∈ t.metadata.writeSet
    · exact olookup_releaseLoop_of_mem _ _ _ _ hm
    · intro hcx
      have hc2 : olookup (releaseLoop t.id s1 t.metadata.writeSet).ownerships x =
          some t.id := hcx
      rw [olookup_releaseLoop_not_mem _ _ _ _ hm] at hc2
      have hxw : x ∉ ws₁ := by
        intro hmem
        exact hm (hws ▸ List.mem_append_left _ hmem)
      rw [hs1, hto] at hc2
      rw [r3 x hxw] at hc2
      exact h5 x hc2
  · have hmem : ((rollback (takeOwnerships s t).2 t).1).mem =
        ((takeOwnerships s t).2).mem := releaseLoop_mem_eq _ _ _
    rw [hmem, hto]
    exact r4

/-- C4 (witness): evaluating the amended theorem at the concrete state: the
attempt fails, cell `1` (visited before the conflicting cell `0` in
insertion order) is claimed, and the rollback releases every ownership. -/
theorem claim_C4_witness :
    (takeOwnerships sW4 tW4).1 = false ∧
      olookup ((takeOwnerships sW4 tW4).2).ownerships 1 = some tW4.id ∧
      (∀ x, olookup ((rollback (takeOwnerships sW4 tW4).2 tW4).1).ownerships x ≠
        some tW4.id) := by
  have h5 : ∀ x, olookup sW4.ownerships x ≠ some tW4.id := by
    intro x
    by_cases h0 : x = 0
    · subst h0
      decide
    · have hml : mlookup sW4.ownerships x = none := by
        show mlookup [((0 : Nat), some 9)] x = none
        unfold mlookup
        rw [if_neg (fun he => h0 he.symm)]
        rfl
      show olookup sW4.ownerships x ≠ some tW4.id
      unfold olookup
      rw [hml]
      simp
  have h := claim_C4 sW4 tW4 [1] [] 0 9 (by decide) (by decide) (by decide)
    (by decide) (by decide) h5
  exact ⟨h.1, h.2.1 1 (by decide), h.2.2.2.2.1⟩

/-! ## C5 -/

/-- The single action of the undecodable-cell scenario: read cell `0` and
return the read's status, as the demo transactions do. -/
def actsW5 : List (ActionM Nat) := [ActionM.readT 0 (fun ok _ => ActionM.ret ok)]

/-- Shared memory whose single cell holds bytes `[0]`, which the codec `CN`
cannot decode. -/
def sW5 : STM := { mem := [[0]], ownerships := [] }

/-- The fixpoint state of the retrying transaction of the undecodable-cell
scenario. -/
def tW5 : TxnState Nat :=
  { metadata :=
      { name := "t5", status := false, version := 0,
        oldValues := [], readSet := [], writeSet := [] },
    isScanning := false, tvars := [], id := 3 }

/-- C5 (counterexample): with an undecodable cell, `ReadT` merely returns
`false`; the attempt ends in rollback-and-retry leaving the state exactly
as before, and the retry loop spins without ever terminating or surfacing
an error — the decode failure is handled like an ordinary conflict, not as
a fatal error propagated to the caller of `Exec`. -/
theorem claim_C5_counterexample :
    attempt CN actsW5 sW5 tW5 = (sW5, tW5, false) ∧
      goLoop CN actsW5 50 sW5 tW5 = none ∧
      (ReadT CN sW5 tW5 0).1 = false := by
  decide

/-- C5 (amended): a decode failure inside `ReadT` makes `ReadT` return
`false` with all state unchanged; when the attempt consequently fails and
returns the state unchanged, the retry loop of `Go` diverges: no amount of
fuel makes it terminate, and no error value exists to propagate. -/
theorem claim_C5 {Val : Type} (C : Codec Val) (acts : List (ActionM Val)) (s : STM)
    (t : TxnState Val) (c : Nat)
    (hdec : C.dec (memRead s.mem c) = none)
    (hfix : attempt C acts s t = (s, t, false)) :
    ReadT C s t c = (false, s, t, none) ∧
      (∀ fuel, goLoop C acts fuel s t = none) := by
  constructor
  · have h0 : readData C (memRead s.mem c) = none := by
      unfold readData
      rw [hdec]
    unfold ReadT
    rw [h0]
  · intro fuel
    induction fuel with
    | zero => rfl
    | succ fuel ih =>
      unfold goLoop
      rw [hfix]
      exact ih

/-- C5 (witness): evaluating the amended theorem at the concrete
undecodable-cell state. -/
theorem claim_C5_witness : goLoop CN actsW5 9 sW5 tW5 = none :=
  (claim_C5 CN actsW5 sW5 tW5 0 (by decide) (by decide)).2 9

end STMGo
